import Mathlib

/-!
Verification of the SPADE sequential pattern mining engine (`src/spade.rs`).

The Rust source is shallowly embedded:
* `Record` is the `Record` struct (sid: u32, eid: i32); only comparisons are
  performed on the fields, so they are modelled as `Nat` and `Int`.
* `EventSet` models `bit_set::BitSet` by the ascending list of its members
  (a `BitSet` iterates its members in ascending order and is equal to
  another exactly when the member lists coincide).
* `HashMap<Pattern, List>` is modelled by an association list; its iteration
  order, which in Rust is arbitrary, is the insertion order of the list.
* The two-pointer loops `join_extend` / `join_expand` are translated with an
  explicit fuel argument equal to the loop's iteration bound `|a| + |b|`
  (each iteration advances at least one cursor, so the fuel never runs out);
  this keeps the definitions kernel-reducible.
* The `rayon` parallel loop in `Spade::next` is modelled by a left fold over
  the candidate list: one admissible interleaving of the parallel insertions.
-/

namespace SeqPattern

/-- `Record` from spade.rs: the sid and eid of an EventSet occurrence. -/
structure Record where
  sid : Nat
  eid : Int
deriving DecidableEq, Repr

/-- The derived Rust `Ord` on `Record` is lexicographic on (sid, eid). -/
instance : LT Record := ⟨fun a b => a.sid < b.sid ∨ (a.sid = b.sid ∧ a.eid < b.eid)⟩

instance : LE Record := ⟨fun a b => a.sid < b.sid ∨ (a.sid = b.sid ∧ a.eid ≤ b.eid)⟩

instance : DecidableRel (α := Record) (· < ·) := fun a b =>
  show Decidable (a.sid < b.sid ∨ (a.sid = b.sid ∧ a.eid < b.eid)) from inferInstance

instance : DecidableRel (α := Record) (· ≤ ·) := fun a b =>
  show Decidable (a.sid < b.sid ∨ (a.sid = b.sid ∧ a.eid ≤ b.eid)) from inferInstance

instance : IsTrans Record (· < ·) where
  trans a b c hab hbc := by
    have h1 : a.sid < b.sid ∨ (a.sid = b.sid ∧ a.eid < b.eid) := hab
    have h2 : b.sid < c.sid ∨ (b.sid = c.sid ∧ b.eid < c.eid) := hbc
    show a.sid < c.sid ∨ (a.sid = c.sid ∧ a.eid < c.eid)
    omega

instance : IsIrrefl Record (· < ·) where
  irrefl a h := by
    have h1 : a.sid < a.sid ∨ (a.sid = a.sid ∧ a.eid < a.eid) := h
    omega

instance : IsTrans Record (· ≤ ·) where
  trans a b c hab hbc := by
    have h1 : a.sid < b.sid ∨ (a.sid = b.sid ∧ a.eid ≤ b.eid) := hab
    have h2 : b.sid < c.sid ∨ (b.sid = c.sid ∧ b.eid ≤ c.eid) := hbc
    show a.sid < c.sid ∨ (a.sid = c.sid ∧ a.eid ≤ c.eid)
    omega

instance : IsTotal Record (· ≤ ·) where
  total a b := by
    show (a.sid < b.sid ∨ (a.sid = b.sid ∧ a.eid ≤ b.eid)) ∨
      b.sid < a.sid ∨ (b.sid = a.sid ∧ b.eid ≤ a.eid)
    omega

instance : IsAntisymm Record (· ≤ ·) where
  antisymm a b hab hba := by
    have h1 : a.sid < b.sid ∨ (a.sid = b.sid ∧ a.eid ≤ b.eid) := hab
    have h2 : b.sid < a.sid ∨ (b.sid = a.sid ∧ b.eid ≤ a.eid) := hba
    cases a
    cases b
    simp only [Record.mk.injEq]
    simp only at h1 h2
    omega

/-- `EventSet`: a `bit_set::BitSet`, as the ascending list of its members. -/
abbrev EventSet := List Nat

/-- `Pattern` from spade.rs: `Vec<EventSet>`. -/
abbrev Pattern := List EventSet

/-- `BitSet::union_with`: union of two ascending member lists, ascending.
The fuel equals the iteration bound of the merge. -/
def esUnionFuel : Nat → EventSet → EventSet → EventSet
  | 0, _, _ => []
  | _ + 1, [], t => t
  | _ + 1, a :: as0, [] => a :: as0
  | n + 1, a :: as0, b :: bs =>
    if a < b then a :: esUnionFuel n as0 (b :: bs)
    else if b < a then b :: esUnionFuel n (a :: as0) bs
    else a :: esUnionFuel n as0 bs

/-- `suffix_a.union_with(suffix_b)` on canonical member lists. -/
def esUnion (s t : EventSet) : EventSet := esUnionFuel (s.length + t.length) s t

/-- The loop body of `join_extend` (spade.rs lines 215-239), fuelled by the
iteration bound `|a| + |b|`: each iteration advances `i` or `j`. -/
def joinExtendFuel : Nat → List Record → List Record → List Record
  | 0, _, _ => []
  | _ + 1, [], _ => []
  | _ + 1, _ :: _, [] => []
  | n + 1, x :: xs, y :: ys =>
    if x.sid < y.sid then joinExtendFuel n xs (y :: ys)
    else if y.sid < x.sid then joinExtendFuel n (x :: xs) ys
    else if x.eid < y.eid then y :: joinExtendFuel n (x :: xs) ys
    else joinExtendFuel n (x :: xs) ys

/-- `join_extend` from spade.rs: join P->A with P->B producing P->A->B
(also PA with P->B producing PA->B). -/
def join_extend (a b : List Record) : List Record :=
  joinExtendFuel (a.length + b.length) a b

/-- The loop body of `join_expand` (spade.rs lines 243-275), fuelled by the
iteration bound `|a| + |b|`. -/
def joinExpandFuel : Nat → List Record → List Record → List Record
  | 0, _, _ => []
  | _ + 1, [], _ => []
  | _ + 1, _ :: _, [] => []
  | n + 1, x :: xs, y :: ys =>
    if x.sid < y.sid then joinExpandFuel n xs (y :: ys)
    else if y.sid < x.sid then joinExpandFuel n (x :: xs) ys
    else if x.eid < y.eid then joinExpandFuel n xs (y :: ys)
    else if y.eid < x.eid then joinExpandFuel n (x :: xs) ys
    else y :: joinExpandFuel n xs ys

/-- `join_expand` from spade.rs: join PA with PB producing PAB
(also P->A with P->B producing P->AB). -/
def join_expand (a b : List Record) : List Record :=
  joinExpandFuel (a.length + b.length) a b

/-- Lookup in an association list (the model of `HashMap` indexing). -/
def alookup {κ β : Type} [DecidableEq κ] : List (κ × β) → κ → Option β
  | [], _ => none
  | (k, v) :: rest, key => if key = k then some v else alookup rest key

/-- `map.entry(k).or_default().push(r)`: append `r` to the id-list of key
`k`, creating the entry when absent. -/
def pushEntry {κ : Type} [DecidableEq κ] :
    List (κ × List Record) → κ → Record → List (κ × List Record)
  | [], k, r => [(k, [r])]
  | (k1, v) :: rest, k, r =>
    if k = k1 then (k1, v ++ [r]) :: rest else (k1, v) :: pushEntry rest k r

/-- `map.insert(k, v)`: set the value of key `k`, overwriting when present. -/
def minsert {κ β : Type} [DecidableEq κ] : List (κ × β) → κ → β → List (κ × β)
  | [], k, v => [(k, v)]
  | (k1, v1) :: rest, k, v =>
    if k = k1 then (k1, v) :: rest else (k1, v1) :: minsert rest k v

/-- `map.extend(new)`: insert every entry of `new`, overwriting on collision. -/
def extendMap {κ β : Type} [DecidableEq κ] (m new : List (κ × β)) : List (κ × β) :=
  new.foldl (fun acc kv => minsert acc kv.1 kv.2) m

/-- The check-then-insert discipline of `Spade::next`
(`if !result.contains_key(&pattern) { result.insert(pattern, list) }`). -/
def tryInsert {κ β : Type} [DecidableEq κ] (m : List (κ × β)) (k : κ) (v : β) :
    List (κ × β) :=
  if (alookup m k).isSome then m else m ++ [(k, v)]

/-- `Vec::dedup`: remove consecutive equal elements. -/
def dedupAdj {α : Type} [DecidableEq α] : List α → List α
  | [] => []
  | [x] => [x]
  | x :: y :: rest => if x = y then dedupAdj (y :: rest) else x :: dedupAdj (y :: rest)

/-- `v.par_sort_unstable(); v.dedup();` from `Spade::from_iter`. -/
def sortDedup (l : List Record) : List Record :=
  dedupAdj (List.insertionSort (· ≤ ·) l)

/-- The `Spade` engine state: `stack` is the frontier, `store` the
cumulative pattern map. -/
structure Spade where
  stack : List (Pattern × List Record)
  store : List (Pattern × List Record)

/-- The pair enumeration of `Spade::candidate` (spade.rs lines 91-99):
each pattern paired with itself, then with every later pattern. -/
def pairs : List Pattern → List (Pattern × Pattern)
  | [] => []
  | p :: rest => (p, p) :: (rest.map (fun q => (p, q)) ++ pairs rest)

/-- `Spade::candidate` (spade.rs lines 76-102): keep the frontier patterns
whose id-list length strictly exceeds `min_sup`, then enumerate pairs. -/
def Spade.candidate (s : Spade) (min_sup : Nat) : List (Pattern × Pattern) :=
  pairs ((s.stack.filter (fun kv => min_sup < kv.2.length)).map Prod.fst)

/-- The guard of the equal-length rule in `Spade::next` (line 124):
`last_idx_a == last_idx_b && prefix_a == prefix_b`. -/
def ruleEqualCond (pattern_a pattern_b : Pattern) : Prop :=
  pattern_a.length - 1 = pattern_b.length - 1 ∧
    pattern_a.take (pattern_a.length - 1) = pattern_b.take (pattern_b.length - 1)

instance : ∀ pa pb, Decidable (ruleEqualCond pa pb) := fun _ _ => instDecidableAnd

/-- The guard of the one-shorter rule in `Spade::next` (line 162):
`last_idx_a + 1 == last_idx_b && &prefix_b[..last_idx_b - 1] == prefix_a`.
The symmetric guard on line 174 is this condition with swapped arguments. -/
def ruleXplusCond (pattern_a pattern_b : Pattern) : Prop :=
  pattern_a.length - 1 + 1 = pattern_b.length - 1 ∧
    (pattern_b.take (pattern_b.length - 1)).take (pattern_b.length - 1 - 1) =
      pattern_a.take (pattern_a.length - 1)

instance : ∀ pa pb, Decidable (ruleXplusCond pa pb) := fun _ _ => instDecidableAnd

/-- The body of the parallel loop in `Spade::next` (spade.rs lines 110-185),
acting on the shared `result` map for one candidate pair. -/
def processPair (stack : List (Pattern × List Record))
    (result : List (Pattern × List Record)) (c : Pattern × Pattern) :
    List (Pattern × List Record) :=
  let pattern_a := c.1
  let pattern_b := c.2
  let last_idx_a := pattern_a.length - 1
  let last_idx_b := pattern_b.length - 1
  let list_a := (alookup stack pattern_a).getD []
  let list_b := (alookup stack pattern_b).getD []
  let prefix_a := pattern_a.take last_idx_a
  let suffix_a := pattern_a.getD last_idx_a []
  let suffix_b := pattern_b.getD last_idx_b []
  let r1 :=
    if ruleEqualCond pattern_a pattern_b then
      let r := tryInsert result (pattern_a ++ [suffix_b]) (join_extend list_a list_b)
      if pattern_a ≠ pattern_b then
        let r := tryInsert r (pattern_b ++ [suffix_a]) (join_extend list_b list_a)
        tryInsert r (prefix_a ++ [esUnion suffix_a suffix_b]) (join_expand list_a list_b)
      else r
    else result
  let r2 :=
    if ruleXplusCond pattern_a pattern_b then
      tryInsert r1 (pattern_a ++ [suffix_b]) (join_extend list_a list_b)
    else r1
  if ruleXplusCond pattern_b pattern_a then
    tryInsert r2 (pattern_b ++ [suffix_a]) (join_extend list_b list_a)
  else r2

/-- `Spade::next` (spade.rs lines 105-190): process every candidate pair
into a fresh `result` map, extend the store with it, and make it the new
frontier. -/
def Spade.next (s : Spade) (min_sup : Nat) : Spade :=
  let result := (s.candidate min_sup).foldl (processPair s.stack) []
  { stack := result, store := extendMap s.store result }

/-- The ingestion loop of `Spade::from_iter` (spade.rs lines 279-287):
for each `(record, event_set)` pair and each member event, push the record
onto the id-list of the length-1 pattern of that event. -/
def ingestAll (input : List (Record × EventSet)) : List (Pattern × List Record) :=
  input.foldl (fun acc rv => rv.2.foldl (fun acc2 e => pushEntry acc2 [[e]] rv.1) acc) []

/-- `Spade::from_iter` (spade.rs lines 277-295): ingest, then sort and
dedup every id-list; the store starts as a copy of the frontier. -/
def fromIter (input : List (Record × EventSet)) : Spade :=
  let stack := (ingestAll input).map (fun kv => (kv.1, sortDedup kv.2))
  { stack := stack, store := stack }

/-- Engine states reachable through the public construction interface:
`collect` (`from_iter`) followed by any sequence of `next` calls. -/
inductive Reachable : Spade → Prop
  | init (input : List (Record × EventSet)) : Reachable (fromIter input)
  | step (s : Spade) (min_sup : Nat) : Reachable s → Reachable (s.next min_sup)

/-- Count of distinct sids in an id-list: the support of a pattern. -/
def sidCount (l : List Record) : Nat := (l.map Record.sid).toFinset.card

/-- A record of `b` survives the temporal join with `a` exactly when some
record of `a` shares its sid and has a strictly smaller eid. -/
def hasEarlier (a : List Record) (y : Record) : Prop :=
  ∃ x ∈ a, x.sid = y.sid ∧ x.eid < y.eid

instance : ∀ a y, Decidable (hasEarlier a y) := fun a _ =>
  List.decidableBEx _ a

/-- Every entry inserted by the expansion rules has a pattern ending in a
pushed element and an id-list that is a join of two frontier id-lists. -/
def JoinShape (stack : List (Pattern × List Record)) (kv : Pattern × List Record) : Prop :=
  (∃ q e, kv.1 = q ++ [e]) ∧ ∃ la lb,
    (la = [] ∨ ∃ p, (p, la) ∈ stack) ∧ (lb = [] ∨ ∃ p, (p, lb) ∈ stack) ∧
    (kv.2 = join_extend la lb ∨ kv.2 = join_expand la lb)

/-- The single-record input of the boundary scenario: `(0, 1, {0})`. -/
def inputSingle : List (Record × EventSet) := [(⟨0, 1⟩, [0])]

/-- Input whose level-2 frontier holds the length-1 pattern `[{0,1}]` and
the length-2 pattern `[{2},{3}]`, making the one-shorter rule fire across
them although `[{2},{3}]` does not start with `[{0,1}]`. -/
def inputMixed : List (Record × EventSet) := [(⟨0, 1⟩, [0, 1, 2]), (⟨0, 2⟩, [3])]

/-- Input on which the third expansion level re-derives the stored pattern
`[{1,2},{0,1}]` with a smaller id-list, so the store commit revises it. -/
def inputRevise : List (Record × EventSet) :=
  [(⟨0, 2⟩, [0, 1]), (⟨0, 1⟩, [1, 2]), (⟨0, 3⟩, [0])]

/-! ### Basic facts about the Record order -/

theorem Record.lt_iff {a b : Record} :
    a < b ↔ a.sid < b.sid ∨ (a.sid = b.sid ∧ a.eid < b.eid) := Iff.rfl

theorem Record.le_iff {a b : Record} :
    a ≤ b ↔ a.sid < b.sid ∨ (a.sid = b.sid ∧ a.eid ≤ b.eid) := Iff.rfl

theorem Record.eq_iff {a b : Record} : a = b ↔ a.sid = b.sid ∧ a.eid = b.eid := by
  cases a; cases b; simp

theorem Record.lt_irrefl (a : Record) : ¬ a < a := by
  rw [Record.lt_iff]; omega

theorem Record.lt_trans {a b c : Record} (h1 : a < b) (h2 : b < c) : a < c := by
  rw [Record.lt_iff] at *; omega

/-! ### Facts about the two joins -/

theorem joinExtendFuel_sublist (n : Nat) :
    ∀ a b : List Record, List.Sublist (joinExtendFuel n a b) b := by
  induction n with
  | zero => intro a b; simp [joinExtendFuel]
  | succ n ih =>
    intro a b
    match a, b with
    | [], b => simp [joinExtendFuel]
    | x :: xs, [] => simp [joinExtendFuel]
    | x :: xs, y :: ys =>
      simp only [joinExtendFuel]
      split_ifs
      · exact ih xs (y :: ys)
      · exact (ih (x :: xs) ys).cons y
      · exact (ih (x :: xs) ys).cons₂ y
      · exact (ih (x :: xs) ys).cons y

theorem join_extend_sublist (a b : List Record) : List.Sublist (join_extend a b) b :=
  joinExtendFuel_sublist _ a b

theorem joinExpandFuel_sublist (n : Nat) :
    ∀ a b : List Record, List.Sublist (joinExpandFuel n a b) b := by
  induction n with
  | zero => intro a b; simp [joinExpandFuel]
  | succ n ih =>
    intro a b
    match a, b with
    | [], b => simp [joinExpandFuel]
    | x :: xs, [] => simp [joinExpandFuel]
    | x :: xs, y :: ys =>
      simp only [joinExpandFuel]
      split_ifs
      · exact ih xs (y :: ys)
      · exact (ih (x :: xs) ys).cons y
      · exact ih xs (y :: ys)
      · exact (ih (x :: xs) ys).cons y
      · exact (ih xs ys).cons₂ y

theorem join_expand_sublist (a b : List Record) : List.Sublist (join_expand a b) b :=
  joinExpandFuel_sublist _ a b

theorem sid_of_mem_joinExtendFuel (n : Nat) :
    ∀ a b r, r ∈ joinExtendFuel n a b → ∃ x ∈ a, x.sid = r.sid := by
  induction n with
  | zero => intro a b r h; simp [joinExtendFuel] at h
  | succ n ih =>
    intro a b r h
    match a, b with
    | [], b => simp [joinExtendFuel] at h
    | x :: xs, [] => simp [joinExtendFuel] at h
    | x :: xs, y :: ys =>
      simp only [joinExtendFuel] at h
      split_ifs at h with h1 h2 h3
      · obtain ⟨z, hz, hs⟩ := ih xs (y :: ys) r h
        exact ⟨z, List.mem_cons_of_mem x hz, hs⟩
      · exact ih (x :: xs) ys r h
      · rcases List.mem_cons.mp h with h | h
        · subst h
          exact ⟨x, List.mem_cons_self x xs, by omega⟩
        · exact ih (x :: xs) ys r h
      · exact ih (x :: xs) ys r h

theorem sid_of_mem_join_extend {a b : List Record} {r : Record}
    (h : r ∈ join_extend a b) : ∃ x ∈ a, x.sid = r.sid :=
  sid_of_mem_joinExtendFuel _ a b r h

theorem sid_of_mem_joinExpandFuel (n : Nat) :
    ∀ a b r, r ∈ joinExpandFuel n a b → ∃ x ∈ a, x.sid = r.sid := by
  induction n with
  | zero => intro a b r h; simp [joinExpandFuel] at h
  | succ n ih =>
    intro a b r h
    match a, b with
    | [], b => simp [joinExpandFuel] at h
    | x :: xs, [] => simp [joinExpandFuel] at h
    | x :: xs, y :: ys =>
      simp only [joinExpandFuel] at h
      split_ifs at h with h1 h2 h3 h4
      · obtain ⟨z, hz, hs⟩ := ih xs (y :: ys) r h
        exact ⟨z, List.mem_cons_of_mem x hz, hs⟩
      · exact ih (x :: xs) ys r h
      · obtain ⟨z, hz, hs⟩ := ih xs (y :: ys) r h
        exact ⟨z, List.mem_cons_of_mem x hz, hs⟩
      · exact ih (x :: xs) ys r h
      · rcases List.mem_cons.mp h with h | h
        · subst h
          exact ⟨x, List.mem_cons_self x xs, by omega⟩
        · obtain ⟨z, hz, hs⟩ := ih xs ys r h
          exact ⟨z, List.mem_cons_of_mem x hz, hs⟩

theorem sid_of_mem_join_expand {a b : List Record} {r : Record}
    (h : r ∈ join_expand a b) : ∃ x ∈ a, x.sid = r.sid :=
  sid_of_mem_joinExpandFuel _ a b r h

theorem joinExtendFuel_eq_filter (n : Nat) :
    ∀ a b : List Record, a.length + b.length ≤ n →
      a.Sorted (· < ·) → b.Sorted (· < ·) →
      joinExtendFuel n a b = b.filter (fun y => decide (hasEarlier a y)) := by
  induction n with
  | zero =>
    intro a b hn _ _
    match a, b with
    | [], [] => simp [joinExtendFuel]
    | [], _ :: _ => simp at hn
    | _ :: _, _ => simp at hn
  | succ n ih =>
    intro a b hn ha hb
    match a, b with
    | [], b =>
      simp only [joinExtendFuel]
      have : ∀ y ∈ b, ¬ hasEarlier [] y := by
        intro y _ h; obtain ⟨x, hx, _⟩ := h; simp at hx
      rw [List.filter_eq_nil_iff.mpr]
      intro y hy
      simpa using this y hy
    | x :: xs, [] => simp [joinExtendFuel]
    | x :: xs, y :: ys =>
      rw [List.sorted_cons] at ha hb
      obtain ⟨hxlt, ha2⟩ := ha
      obtain ⟨hylt, hb2⟩ := hb
      simp only [joinExtendFuel]
      split_ifs with h1 h2 h3
      · -- a-head sid is below every sid in b: drop x
        rw [ih xs (y :: ys) (by simp at hn ⊢; omega) ha2 (List.sorted_cons.mpr ⟨hylt, hb2⟩)]
        apply (List.filter_congr _).symm
        intro z hz
        simp only [decide_eq_decide]
        constructor
        · rintro ⟨w, hw, hws, hwe⟩
          rcases List.mem_cons.mp hw with rfl | hw
          · exfalso
            have hyz : y.sid ≤ z.sid := by
              rcases List.mem_cons.mp hz with rfl | hz
              · omega
              · have := hylt z hz; rw [Record.lt_iff] at this; omega
            omega
          · exact ⟨w, hw, hws, hwe⟩
        · rintro ⟨w, hw, hws, hwe⟩
          exact ⟨w, List.mem_cons_of_mem x hw, hws, hwe⟩
      · -- b-head sid is below every sid in a: drop y
        have hy : ¬ hasEarlier (x :: xs) y := by
          rintro ⟨w, hw, hws, _⟩
          rcases List.mem_cons.mp hw with rfl | hw
          · omega
          · have := hxlt w hw; rw [Record.lt_iff] at this; omega
        rw [List.filter_cons_of_neg (by simpa using hy)]
        exact ih (x :: xs) ys (by simp at hn ⊢; omega)
          (List.sorted_cons.mpr ⟨hxlt, ha2⟩) hb2
      · -- equal sids, x.eid < y.eid: emit y
        have hy : hasEarlier (x :: xs) y := ⟨x, List.mem_cons_self x xs, by omega, h3⟩
        rw [List.filter_cons_of_pos (by simpa using hy)]
        rw [ih (x :: xs) ys (by simp at hn ⊢; omega)
          (List.sorted_cons.mpr ⟨hxlt, ha2⟩) hb2]
      · -- equal sids, x.eid ≥ y.eid: no witness for y
        have hy : ¬ hasEarlier (x :: xs) y := by
          rintro ⟨w, hw, hws, hwe⟩
          rcases List.mem_cons.mp hw with rfl | hw
          · omega
          · have := hxlt w hw; rw [Record.lt_iff] at this; omega
        rw [List.filter_cons_of_neg (by simpa using hy)]
        exact ih (x :: xs) ys (by simp at hn ⊢; omega)
          (List.sorted_cons.mpr ⟨hxlt, ha2⟩) hb2

/-- `join_extend` on sorted inputs keeps exactly the records of `b` some
record of `a` precedes within the same sid. -/
theorem join_extend_eq_filter {a b : List Record}
    (ha : a.Sorted (· < ·)) (hb : b.Sorted (· < ·)) :
    join_extend a b = b.filter (fun y => decide (hasEarlier a y)) :=
  joinExtendFuel_eq_filter _ a b le_rfl ha hb

theorem joinExpandFuel_eq_filter (n : Nat) :
    ∀ a b : List Record, a.length + b.length ≤ n →
      a.Sorted (· < ·) → b.Sorted (· < ·) →
      joinExpandFuel n a b = b.filter (fun y => decide (y ∈ a)) := by
  induction n with
  | zero =>
    intro a b hn _ _
    match a, b with
    | [], [] => simp [joinExpandFuel]
    | [], _ :: _ => simp at hn
    | _ :: _, _ => simp at hn
  | succ n ih =>
    intro a b hn ha hb
    match a, b with
    | [], b =>
      simp [joinExpandFuel]
    | x :: xs, [] => simp [joinExpandFuel]
    | x :: xs, y :: ys =>
      rw [List.sorted_cons] at ha hb
      obtain ⟨hxlt, ha2⟩ := ha
      obtain ⟨hylt, hb2⟩ := hb
      simp only [joinExpandFuel]
      split_ifs with h1 h2 h3 h4
      · -- a-head sid below every sid of b: x matches nothing in b
        rw [ih xs (y :: ys) (by simp at hn ⊢; omega) ha2 (List.sorted_cons.mpr ⟨hylt, hb2⟩)]
        apply (List.filter_congr _).symm
        intro z hz
        simp only [decide_eq_decide, List.mem_cons]
        constructor
        · rintro (rfl | hw)
          · exfalso
            have hyz : y.sid ≤ z.sid := by
              rcases List.mem_cons.mp hz with rfl | hz
              · omega
              · have := hylt z hz; rw [Record.lt_iff] at this; omega
            omega
          · exact hw
        · intro hw; exact Or.inr hw
      · -- b-head sid below every sid of a: y is in no member of a
        have hy : y ∉ x :: xs := by
          intro hw
          rcases List.mem_cons.mp hw with hw | hw
          · rw [Record.eq_iff] at hw; omega
          · have := hxlt y hw; rw [Record.lt_iff] at this; omega
        rw [List.filter_cons_of_neg (by simpa using hy)]
        exact ih (x :: xs) ys (by simp at hn ⊢; omega)
          (List.sorted_cons.mpr ⟨hxlt, ha2⟩) hb2
      · -- equal sids, x.eid < y.eid: x matches nothing left in b
        rw [ih xs (y :: ys) (by simp at hn ⊢; omega) ha2 (List.sorted_cons.mpr ⟨hylt, hb2⟩)]
        apply (List.filter_congr _).symm
        intro z hz
        simp only [decide_eq_decide, List.mem_cons]
        constructor
        · rintro (rfl | hw)
          · exfalso
            rcases List.mem_cons.mp hz with h | h
            · rw [Record.eq_iff] at h; omega
            · have := hylt z h; rw [Record.lt_iff] at this; omega
          · exact hw
        · intro hw; exact Or.inr hw
      · -- equal sids, y.eid < x.eid: y is in no member of a
        have hy : y ∉ x :: xs := by
          intro hw
          rcases List.mem_cons.mp hw with hw | hw
          · rw [Record.eq_iff] at hw; omega
          · have := hxlt y hw; rw [Record.lt_iff] at this; omega
        rw [List.filter_cons_of_neg (by simpa using hy)]
        exact ih (x :: xs) ys (by simp at hn ⊢; omega)
          (List.sorted_cons.mpr ⟨hxlt, ha2⟩) hb2
      · -- equal records: emit
        have hxy : y = x := by rw [Record.eq_iff]; omega
        have hy : y ∈ x :: xs := by rw [hxy]; exact List.mem_cons_self x xs
        rw [List.filter_cons_of_pos (by simpa using hy)]
        rw [ih xs ys (by simp at hn ⊢; omega) ha2 hb2]
        congr 1
        apply (List.filter_congr _).symm
        intro z hz
        simp only [decide_eq_decide, List.mem_cons]
        constructor
        · intro h
          rcases h with hzx | hw
          · exfalso
            have hlt := hylt z hz
            rw [hzx, ← hxy] at hlt
            exact Record.lt_irrefl y hlt
          · exact hw
        · intro hw; exact Or.inr hw

/-- `join_expand` on sorted inputs keeps exactly the records of `b` that
also occur in `a`: the sorted intersection. -/
theorem join_expand_eq_filter {a b : List Record}
    (ha : a.Sorted (· < ·)) (hb : b.Sorted (· < ·)) :
    join_expand a b = b.filter (fun y => decide (y ∈ a)) :=
  joinExpandFuel_eq_filter _ a b le_rfl ha hb

/-- Two strictly sorted lists with the same members are equal. -/
theorem eq_of_sorted_lt_mem_iff :
    ∀ {l1 l2 : List Record}, l1.Sorted (· < ·) → l2.Sorted (· < ·) →
      (∀ x, x ∈ l1 ↔ x ∈ l2) → l1 = l2 := by
  intro l1
  induction l1 with
  | nil =>
    intro l2 _ _ hm
    cases l2 with
    | nil => rfl
    | cons y ys => exact absurd ((hm y).mpr (List.mem_cons_self y ys)) (by simp)
  | cons x xs ih =>
    intro l2 h1 h2 hm
    cases l2 with
    | nil => exact absurd ((hm x).mp (List.mem_cons_self x xs)) (by simp)
    | cons y ys =>
      rw [List.sorted_cons] at h1 h2
      obtain ⟨hx, hxs⟩ := h1
      obtain ⟨hy, hys⟩ := h2
      have hxy : x = y := by
        rcases List.mem_cons.mp ((hm x).mp (List.mem_cons_self x xs)) with h | h
        · exact h
        · rcases List.mem_cons.mp ((hm y).mpr (List.mem_cons_self y ys)) with h9 | h9
          · exact h9.symm
          · exact absurd (Record.lt_trans (hy x h) (hx y h9)) (Record.lt_irrefl y)
      subst hxy
      have : xs = ys := by
        apply ih hxs hys
        intro z
        constructor
        · intro hz
          rcases List.mem_cons.mp ((hm z).mp (List.mem_cons_of_mem x hz)) with h | h
          · exfalso
            have hlt := hx z hz
            rw [h] at hlt
            exact Record.lt_irrefl x hlt
          · exact h
        · intro hz
          rcases List.mem_cons.mp ((hm z).mpr (List.mem_cons_of_mem x hz)) with h | h
          · exfalso
            have hlt := hy z hz
            rw [h] at hlt
            exact Record.lt_irrefl x hlt
          · exact h
      rw [this]

/-- On sorted distinct inputs the itemset join is symmetric. -/
theorem join_expand_comm {a b : List Record}
    (ha : a.Sorted (· < ·)) (hb : b.Sorted (· < ·)) :
    join_expand a b = join_expand b a := by
  rw [join_expand_eq_filter ha hb, join_expand_eq_filter hb ha]
  apply eq_of_sorted_lt_mem_iff (hb.filter _) (ha.filter _)
  intro z
  simp only [List.mem_filter, decide_eq_true_eq]
  exact ⟨fun h => ⟨h.2, h.1⟩, fun h => ⟨h.2, h.1⟩⟩

/-! ### Facts about sort-then-dedup -/

theorem Record.lt_of_le_of_ne {a b : Record} (h1 : a ≤ b) (h2 : a ≠ b) : a < b := by
  rw [Record.le_iff] at h1
  rw [Record.lt_iff]
  rw [Ne, Record.eq_iff] at h2
  omega

theorem Record.le_antisymm {a b : Record} (h1 : a ≤ b) (h2 : b ≤ a) : a = b := by
  rw [Record.le_iff] at h1 h2
  rw [Record.eq_iff]
  omega

theorem mem_dedupAdj {α : Type} [DecidableEq α] :
    ∀ (l : List α) (z : α), z ∈ dedupAdj l ↔ z ∈ l := by
  intro l
  induction l with
  | nil => intro z; simp [dedupAdj]
  | cons x tail ih =>
    intro z
    cases tail with
    | nil => simp [dedupAdj]
    | cons y rest =>
      simp only [dedupAdj]
      split_ifs with h
      · rw [ih z]
        subst h
        simp [List.mem_cons]
      · simp [List.mem_cons, ih z]

theorem sorted_lt_dedupAdj :
    ∀ {l : List Record}, l.Sorted (· ≤ ·) → (dedupAdj l).Sorted (· < ·) := by
  intro l
  induction l with
  | nil => intro _; simp [dedupAdj]
  | cons x tail ih =>
    intro h
    rw [List.sorted_cons] at h
    obtain ⟨hx, htail⟩ := h
    cases tail with
    | nil => simp [dedupAdj]
    | cons y rest =>
      simp only [dedupAdj]
      split_ifs with hxy
      · exact ih htail
      · rw [List.sorted_cons]
        refine ⟨?_, ih htail⟩
        intro z hz
        rw [mem_dedupAdj] at hz
        have hle : x ≤ z := hx z hz
        apply Record.lt_of_le_of_ne hle
        intro hzx
        subst hzx
        rcases List.mem_cons.mp hz with h9 | h9
        · exact hxy h9
        · rw [List.sorted_cons] at htail
          exact hxy (Record.le_antisymm (hx y (List.mem_cons_self y rest)) (htail.1 x h9))

theorem sortDedup_sorted (l : List Record) : (sortDedup l).Sorted (· < ·) :=
  sorted_lt_dedupAdj (List.sorted_insertionSort _ l)

theorem mem_sortDedup (l : List Record) (z : Record) : z ∈ sortDedup l ↔ z ∈ l := by
  unfold sortDedup
  rw [mem_dedupAdj, List.mem_insertionSort]

/-! ### Facts about the association-list model of HashMap -/

theorem alookup_mem {κ β : Type} [DecidableEq κ] :
    ∀ {m : List (κ × β)} {k : κ} {v : β}, alookup m k = some v → (k, v) ∈ m := by
  intro m
  induction m with
  | nil => intro k v h; simp [alookup] at h
  | cons kv rest ih =>
    intro k v h
    match kv with
    | (k1, v1) =>
      simp only [alookup] at h
      split_ifs at h with he
      · subst he
        rw [Option.some_inj] at h
        subst h
        exact List.mem_cons_self _ _
      · exact List.mem_cons_of_mem _ (ih h)

theorem alookup_getD_cases {κ : Type} [DecidableEq κ]
    (m : List (κ × List Record)) (k : κ) :
    (alookup m k).getD [] = [] ∨ (k, (alookup m k).getD []) ∈ m := by
  cases h : alookup m k with
  | none => simp
  | some v => exact Or.inr (by simpa using alookup_mem h)

theorem alookup_eq_none_iff {κ β : Type} [DecidableEq κ]
    (m : List (κ × β)) (k : κ) :
    alookup m k = none ↔ k ∉ m.map Prod.fst := by
  induction m with
  | nil => simp [alookup]
  | cons kv rest ih =>
    match kv with
    | (k1, v1) =>
      simp only [alookup, List.map_cons, List.mem_cons]
      split_ifs with he
      · simp [he]
      · simpa [he] using ih

theorem mem_tryInsert {κ β : Type} [DecidableEq κ]
    {m : List (κ × β)} {k : κ} {v : β} {kv : κ × β}
    (h : kv ∈ tryInsert m k v) : kv ∈ m ∨ kv = (k, v) := by
  unfold tryInsert at h
  split_ifs at h
  · exact Or.inl h
  · rcases List.mem_append.mp h with h | h
    · exact Or.inl h
    · exact Or.inr (by simpa using h)

theorem tryInsert_keys_nodup {κ β : Type} [DecidableEq κ]
    {m : List (κ × β)} (k : κ) (v : β)
    (h : (m.map Prod.fst).Nodup) : ((tryInsert m k v).map Prod.fst).Nodup := by
  unfold tryInsert
  split_ifs with hs
  · exact h
  · rw [Option.not_isSome_iff_eq_none, alookup_eq_none_iff] at hs
    simp only [List.map_append, List.map_cons, List.map_nil]
    rw [List.nodup_append]
    refine ⟨h, List.nodup_singleton k, ?_⟩
    intro a ham hak
    rw [List.mem_singleton] at hak
    subst hak
    exact hs ham

theorem mem_minsert {κ β : Type} [DecidableEq κ] :
    ∀ {m : List (κ × β)} {k : κ} {v : β} {kv : κ × β},
      kv ∈ minsert m k v → kv ∈ m ∨ kv = (k, v) := by
  intro m
  induction m with
  | nil => intro k v kv h; simp [minsert] at h; exact Or.inr h
  | cons kv1 rest ih =>
    intro k v kv h
    match kv1 with
    | (k1, v1) =>
      simp only [minsert] at h
      split_ifs at h with he
      · rcases List.mem_cons.mp h with h | h
        · exact Or.inr (by rw [h, he])
        · exact Or.inl (List.mem_cons_of_mem _ h)
      · rcases List.mem_cons.mp h with h | h
        · exact Or.inl (by rw [h]; exact List.mem_cons_self _ _)
        · rcases ih h with h | h
          · exact Or.inl (List.mem_cons_of_mem _ h)
          · exact Or.inr h

theorem mem_extendMap {κ β : Type} [DecidableEq κ]
    {m new : List (κ × β)} {kv : κ × β}
    (h : kv ∈ extendMap m new) : kv ∈ m ∨ kv ∈ new := by
  induction new generalizing m with
  | nil => exact Or.inl h
  | cons kv1 rest ih =>
    rcases ih h with h | h
    · rcases mem_minsert h with h | h
      · exact Or.inl h
      · exact Or.inr (by rw [h]; exact List.mem_cons_self _ _)
    · exact Or.inr (List.mem_cons_of_mem _ h)

theorem alookup_minsert {κ β : Type} [DecidableEq κ] :
    ∀ (m : List (κ × β)) (k : κ) (v : β) (key : κ),
      alookup (minsert m k v) key = if key = k then some v else alookup m key := by
  intro m
  induction m with
  | nil => intro k v key; simp [minsert, alookup]
  | cons kv1 rest ih =>
    intro k v key
    match kv1 with
    | (k1, v1) =>
      by_cases he : k = k1
      · subst he
        simp only [minsert, if_pos rfl, alookup]
        by_cases h1 : key = k
        · simp [h1]
        · simp [h1]
      · simp only [minsert, if_neg he, alookup]
        by_cases h1 : key = k1
        · subst h1
          have hk : ¬ key = k := fun hc => he hc.symm
          simp [hk]
        · simp only [if_neg h1]
          rw [ih]

theorem extendMap_alookup_none {κ β : Type} [DecidableEq κ] :
    ∀ {new m : List (κ × β)} {key : κ}, alookup new key = none →
      alookup (extendMap m new) key = alookup m key := by
  intro new
  induction new with
  | nil => intro m key _; rfl
  | cons kv1 rest ih =>
    intro m key h
    match kv1 with
    | (k1, v1) =>
      simp only [alookup] at h
      split_ifs at h with he
      show alookup (extendMap (minsert m k1 v1) rest) key = _
      rw [ih h, alookup_minsert, if_neg he]

theorem extendMap_alookup_some {κ β : Type} [DecidableEq κ] :
    ∀ {new m : List (κ × β)} {key : κ} {v : β},
      (new.map Prod.fst).Nodup → alookup new key = some v →
      alookup (extendMap m new) key = some v := by
  intro new
  induction new with
  | nil => intro m key v _ h; simp [alookup] at h
  | cons kv1 rest ih =>
    intro m key v hnd h
    match kv1 with
    | (k1, v1) =>
      simp only [List.map_cons, List.nodup_cons] at hnd
      simp only [alookup] at h
      split_ifs at h with he
      · subst he
        rw [Option.some_inj] at h
        have hnone : alookup rest key = none := by
          rw [alookup_eq_none_iff]
          exact hnd.1
        show alookup (extendMap (minsert m key v1) rest) key = some v
        rw [extendMap_alookup_none hnone, alookup_minsert, if_pos rfl, h]
      · show alookup (extendMap (minsert m k1 v1) rest) key = some v
        exact ih hnd.2 h

/-! ### Shape of the entries produced by one expansion level -/

theorem processPair_forall (stack result : List (Pattern × List Record))
    (c : Pattern × Pattern) (P : Pattern × List Record → Prop)
    (hres : ∀ kv ∈ result, P kv)
    (hjoin : ∀ kv, JoinShape stack kv → P kv) :
    ∀ kv ∈ processPair stack result c, P kv := by
  have step : ∀ (m : List (Pattern × List Record)) k v, (∀ kv ∈ m, P kv) →
      JoinShape stack (k, v) → ∀ kv ∈ tryInsert m k v, P kv := by
    intro m k v hm hk kv h
    rcases mem_tryInsert h with h | h
    · exact hm kv h
    · rw [h]; exact hjoin _ hk
  have g1 : (alookup stack c.1).getD [] = [] ∨
      ∃ p, (p, (alookup stack c.1).getD []) ∈ stack :=
    (alookup_getD_cases stack c.1).imp id (fun h => ⟨c.1, h⟩)
  have g2 : (alookup stack c.2).getD [] = [] ∨
      ∃ p, (p, (alookup stack c.2).getD []) ∈ stack :=
    (alookup_getD_cases stack c.2).imp id (fun h => ⟨c.2, h⟩)
  have hA : JoinShape stack (c.1 ++ [c.2.getD (c.2.length - 1) []],
      join_extend ((alookup stack c.1).getD []) ((alookup stack c.2).getD [])) :=
    ⟨⟨c.1, _, rfl⟩, _, _, g1, g2, Or.inl rfl⟩
  have hB : JoinShape stack (c.2 ++ [c.1.getD (c.1.length - 1) []],
      join_extend ((alookup stack c.2).getD []) ((alookup stack c.1).getD [])) :=
    ⟨⟨c.2, _, rfl⟩, _, _, g2, g1, Or.inl rfl⟩
  have hC : JoinShape stack (c.1.take (c.1.length - 1) ++
      [esUnion (c.1.getD (c.1.length - 1) []) (c.2.getD (c.2.length - 1) [])],
      join_expand ((alookup stack c.1).getD []) ((alookup stack c.2).getD [])) :=
    ⟨⟨c.1.take (c.1.length - 1), _, rfl⟩, _, _, g1, g2, Or.inr rfl⟩
  unfold processPair
  dsimp only
  split_ifs with h1 h2 h3 h4
  all_goals repeat' first
    | exact hres
    | exact hA
    | exact hB
    | exact hC
    | apply step

theorem foldl_processPair_forall (stack : List (Pattern × List Record))
    (P : Pattern × List Record → Prop)
    (hjoin : ∀ kv, JoinShape stack kv → P kv) :
    ∀ (cands : List (Pattern × Pattern)) (init : List (Pattern × List Record)),
      (∀ kv ∈ init, P kv) → ∀ kv ∈ cands.foldl (processPair stack) init, P kv := by
  intro cands
  induction cands with
  | nil => intro init hinit; exact hinit
  | cons c rest ih =>
    intro init hinit
    exact ih (processPair stack init c) (processPair_forall stack init c P hinit hjoin)

theorem processPair_keys_nodup (stack result : List (Pattern × List Record))
    (c : Pattern × Pattern) (h : (result.map Prod.fst).Nodup) :
    ((processPair stack result c).map Prod.fst).Nodup := by
  unfold processPair
  dsimp only
  split_ifs
  all_goals repeat' first
    | exact h
    | apply tryInsert_keys_nodup

theorem foldl_processPair_keys_nodup (stack : List (Pattern × List Record)) :
    ∀ (cands : List (Pattern × Pattern)) (init : List (Pattern × List Record)),
      (init.map Prod.fst).Nodup →
      (((cands.foldl (processPair stack) init)).map Prod.fst).Nodup := by
  intro cands
  induction cands with
  | nil => intro init hinit; exact hinit
  | cons c rest ih =>
    intro init hinit
    exact ih (processPair stack init c) (processPair_keys_nodup stack init c hinit)

theorem next_stack_def (s : Spade) (min_sup : Nat) :
    (s.next min_sup).stack = (s.candidate min_sup).foldl (processPair s.stack) [] := rfl

theorem next_store_def (s : Spade) (min_sup : Nat) :
    (s.next min_sup).store =
      extendMap s.store ((s.candidate min_sup).foldl (processPair s.stack) []) := rfl

theorem next_stack_keys_nodup (s : Spade) (min_sup : Nat) :
    (((s.next min_sup).stack).map Prod.fst).Nodup := by
  rw [next_stack_def]
  exact foldl_processPair_keys_nodup s.stack _ [] List.nodup_nil

/-! ### Reachable-state invariants -/

theorem fromIter_stack_sorted (input : List (Record × EventSet)) :
    ∀ kv ∈ (fromIter input).stack, kv.2.Sorted (· < ·) := by
  intro kv h
  obtain ⟨a, _, ha2⟩ := List.mem_map.mp h
  rw [← ha2]
  exact sortDedup_sorted a.2

theorem reachable_sorted {s : Spade} (h : Reachable s) :
    (∀ kv ∈ s.stack, kv.2.Sorted (· < ·)) ∧ (∀ kv ∈ s.store, kv.2.Sorted (· < ·)) := by
  induction h with
  | init input => exact ⟨fromIter_stack_sorted input, fromIter_stack_sorted input⟩
  | step s min_sup _ ih =>
    have hstack : ∀ kv ∈ (s.next min_sup).stack, kv.2.Sorted (· < ·) := by
      rw [next_stack_def]
      refine foldl_processPair_forall s.stack _ ?_ (s.candidate min_sup) []
        (by intro kv hkv; simp at hkv)
      rintro kv ⟨_, la, lb, _, hlb, hv⟩
      have hlbs : lb.Sorted (· < ·) := by
        rcases hlb with rfl | ⟨p, hp⟩
        · exact List.sorted_nil
        · exact ih.1 (p, lb) hp
      rcases hv with hv | hv
      · rw [hv]; exact hlbs.sublist (join_extend_sublist la lb)
      · rw [hv]; exact hlbs.sublist (join_expand_sublist la lb)
    refine ⟨hstack, ?_⟩
    intro kv hkv
    rw [next_store_def] at hkv
    rcases mem_extendMap hkv with h9 | h9
    · exact ih.2 kv h9
    · exact hstack kv (by rw [next_stack_def]; exact h9)

theorem pushEntry_keys_forall {κ : Type} [DecidableEq κ]
    (Q : κ → Prop) :
    ∀ (m : List (κ × List Record)) (k : κ) (r : Record),
      (∀ kv ∈ m, Q kv.1) → Q k → ∀ kv ∈ pushEntry m k r, Q kv.1 := by
  intro m
  induction m with
  | nil =>
    intro k r _ hk kv h
    simp only [pushEntry, List.mem_singleton] at h
    rw [h]
    exact hk
  | cons kv1 rest ih =>
    intro k r hm hk kv h
    match kv1 with
    | (k1, v1) =>
      simp only [pushEntry] at h
      split_ifs at h with he
      · rcases List.mem_cons.mp h with h | h
        · rw [h]; exact hm (k1, v1) (List.mem_cons_self _ _)
        · exact hm kv (List.mem_cons_of_mem _ h)
      · rcases List.mem_cons.mp h with h | h
        · rw [h]; exact hm (k1, v1) (List.mem_cons_self _ _)
        · exact ih k r (fun kv2 h2 => hm kv2 (List.mem_cons_of_mem _ h2)) hk kv h

theorem ingestAll_keys_forall (Q : Pattern → Prop) (hQ : ∀ e, Q [[e]])
    (input : List (Record × EventSet)) :
    ∀ kv ∈ ingestAll input, Q kv.1 := by
  have inner : ∀ (es : EventSet) (r : Record) (acc : List (Pattern × List Record)),
      (∀ kv ∈ acc, Q kv.1) →
      ∀ kv ∈ es.foldl (fun a e => pushEntry a [[e]] r) acc, Q kv.1 := by
    intro es
    induction es with
    | nil => intro r acc hacc; exact hacc
    | cons e rest ih =>
      intro r acc hacc
      exact ih r _ (pushEntry_keys_forall Q acc [[e]] r hacc (hQ e))
  have outer : ∀ (inp : List (Record × EventSet)) (acc : List (Pattern × List Record)),
      (∀ kv ∈ acc, Q kv.1) →
      ∀ kv ∈ inp.foldl
        (fun acc rv => rv.2.foldl (fun acc2 e => pushEntry acc2 [[e]] rv.1) acc) acc, Q kv.1 := by
    intro inp
    induction inp with
    | nil => intro acc hacc; exact hacc
    | cons rv rest ih =>
      intro acc hacc
      exact ih _ (inner rv.2 rv.1 acc hacc)
  exact outer input [] (by intro kv h; simp at h)

theorem reachable_keys_ne {s : Spade} (h : Reachable s) :
    ∀ kv ∈ s.stack, kv.1 ≠ [] := by
  induction h with
  | init input =>
    intro kv h
    obtain ⟨a, ha, ha2⟩ := List.mem_map.mp h
    have := ingestAll_keys_forall (fun k => k ≠ []) (by intro e; simp) input a ha
    rw [← ha2]
    exact this
  | step s min_sup _ _ =>
    intro kv hkv
    rw [next_stack_def] at hkv
    refine foldl_processPair_forall s.stack (fun kv => kv.1 ≠ []) ?_ _ []
      (by intro kv h9; simp at h9) kv hkv
    rintro kv2 ⟨⟨q, e, hq⟩, _⟩
    rw [hq]
    simp

/-! ### Ingestion lemmas -/

theorem alookup_pushEntry {κ : Type} [DecidableEq κ] :
    ∀ (m : List (κ × List Record)) (k : κ) (r : Record) (key : κ),
      alookup (pushEntry m k r) key =
        if key = k then some ((alookup m k).getD [] ++ [r]) else alookup m key := by
  intro m
  induction m with
  | nil =>
    intro k r key
    simp only [pushEntry, alookup]
    by_cases h1 : key = k <;> simp [h1]
  | cons kv1 rest ih =>
    intro k r key
    match kv1 with
    | (k1, v) =>
      by_cases he : k = k1
      · subst he
        simp only [pushEntry, if_pos rfl, alookup, if_pos rfl]
        by_cases h1 : key = k <;> simp [h1]
      · simp only [pushEntry, if_neg he, alookup]
        by_cases h1 : key = k1
        · subst h1
          have hk : ¬ key = k := fun hc => he hc.symm
          simp [hk]
        · simp only [if_neg h1]
          rw [ih]

theorem ingest_events_mem (r : Record) (p : Pattern) (z : Record) :
    ∀ (es : EventSet) (acc : List (Pattern × List Record)),
      z ∈ (alookup (es.foldl (fun a e => pushEntry a [[e]] r) acc) p).getD [] ↔
        z ∈ (alookup acc p).getD [] ∨ (z = r ∧ ∃ e ∈ es, p = [[e]]) := by
  intro es
  induction es with
  | nil => intro acc; simp
  | cons e rest ih =>
    intro acc
    show z ∈ (alookup (rest.foldl _ (pushEntry acc [[e]] r)) p).getD [] ↔ _
    rw [ih]
    rw [alookup_pushEntry]
    by_cases hp : p = [[e]]
    · subst hp
      rw [if_pos rfl]
      simp only [Option.getD_some, List.mem_append, List.mem_cons, List.not_mem_nil,
        or_false]
      constructor
      · rintro ((h | h) | h)
        · exact Or.inl h
        · exact Or.inr ⟨h, e, Or.inl rfl, rfl⟩
        · exact Or.inr ⟨h.1, h.2.imp (fun e2 he2 => ⟨Or.inr he2.1, he2.2⟩)⟩
      · rintro (h | ⟨hz, e2, he2, hp2⟩)
        · exact Or.inl (Or.inl h)
        · exact Or.inl (Or.inr hz)
    · rw [if_neg hp]
      simp only [List.mem_cons]
      constructor
      · rintro (h | h)
        · exact Or.inl h
        · exact Or.inr ⟨h.1, h.2.imp (fun e2 he2 => ⟨Or.inr he2.1, he2.2⟩)⟩
      · rintro (h | ⟨hz, e2, he2, hp2⟩)
        · exact Or.inl h
        · rcases he2 with he2 | he2
          · exact absurd (he2 ▸ hp2) hp
          · exact Or.inr ⟨hz, e2, he2, hp2⟩

theorem ingestAll_mem_aux (p : Pattern) (z : Record) :
    ∀ (input : List (Record × EventSet)) (acc : List (Pattern × List Record)),
      z ∈ (alookup (input.foldl
          (fun acc rv => rv.2.foldl (fun acc2 e => pushEntry acc2 [[e]] rv.1) acc) acc) p).getD []
        ↔ z ∈ (alookup acc p).getD [] ∨
            ∃ rv ∈ input, z = rv.1 ∧ ∃ e ∈ rv.2, p = [[e]] := by
  intro input
  induction input with
  | nil => intro acc; simp
  | cons rv rest ih =>
    intro acc
    show z ∈ (alookup (rest.foldl _ (rv.2.foldl _ acc)) p).getD [] ↔ _
    rw [ih, ingest_events_mem]
    simp only [List.mem_cons]
    constructor
    · rintro ((h | h) | h)
      · exact Or.inl h
      · exact Or.inr ⟨rv, Or.inl rfl, h⟩
      · obtain ⟨rv2, h2, h3⟩ := h
        exact Or.inr ⟨rv2, Or.inr h2, h3⟩
    · rintro (h | ⟨rv2, (h2 | h2), h3⟩)
      · exact Or.inl (Or.inl h)
      · exact Or.inl (Or.inr (h2 ▸ h3))
      · exact Or.inr ⟨rv2, h2, h3⟩

theorem ingestAll_mem (input : List (Record × EventSet)) (p : Pattern) (z : Record) :
    z ∈ (alookup (ingestAll input) p).getD [] ↔
      ∃ rv ∈ input, z = rv.1 ∧ ∃ e ∈ rv.2, p = [[e]] := by
  rw [show ingestAll input = input.foldl
    (fun acc rv => rv.2.foldl (fun acc2 e => pushEntry acc2 [[e]] rv.1) acc) [] from rfl]
  rw [ingestAll_mem_aux]
  simp [alookup]

theorem pushEntry_vals_forall {κ : Type} [DecidableEq κ] :
    ∀ (m : List (κ × List Record)) (k : κ) (r : Record),
      (∀ kv ∈ m, kv.2 ≠ []) → ∀ kv ∈ pushEntry m k r, kv.2 ≠ [] := by
  intro m
  induction m with
  | nil =>
    intro k r _ kv h
    simp only [pushEntry, List.mem_singleton] at h
    rw [h]
    simp
  | cons kv1 rest ih =>
    intro k r hm kv h
    match kv1 with
    | (k1, v1) =>
      simp only [pushEntry] at h
      split_ifs at h with he
      · rcases List.mem_cons.mp h with h | h
        · rw [h]; simp
        · exact hm kv (List.mem_cons_of_mem _ h)
      · rcases List.mem_cons.mp h with h | h
        · rw [h]; exact hm (k1, v1) (List.mem_cons_self _ _)
        · exact ih k r (fun kv2 h2 => hm kv2 (List.mem_cons_of_mem _ h2)) kv h

theorem ingestAll_vals_ne (input : List (Record × EventSet)) :
    ∀ kv ∈ ingestAll input, kv.2 ≠ [] := by
  have inner : ∀ (es : EventSet) (r : Record) (acc : List (Pattern × List Record)),
      (∀ kv ∈ acc, kv.2 ≠ []) →
      ∀ kv ∈ es.foldl (fun a e => pushEntry a [[e]] r) acc, kv.2 ≠ [] := by
    intro es
    induction es with
    | nil => intro r acc hacc; exact hacc
    | cons e rest ih =>
      intro r acc hacc
      exact ih r _ (pushEntry_vals_forall acc [[e]] r hacc)
  have outer : ∀ (inp : List (Record × EventSet)) (acc : List (Pattern × List Record)),
      (∀ kv ∈ acc, kv.2 ≠ []) →
      ∀ kv ∈ inp.foldl
        (fun acc rv => rv.2.foldl (fun acc2 e => pushEntry acc2 [[e]] rv.1) acc) acc, kv.2 ≠ [] := by
    intro inp
    induction inp with
    | nil => intro acc hacc; exact hacc
    | cons rv rest ih =>
      intro acc hacc
      exact ih _ (inner rv.2 rv.1 acc hacc)
  exact outer input [] (by intro kv h; simp at h)

theorem alookup_getD_nil_iff {κ : Type} [DecidableEq κ]
    {m : List (κ × List Record)} (hne : ∀ kv ∈ m, kv.2 ≠ []) (p : κ) :
    alookup m p = none ↔ (alookup m p).getD [] = [] := by
  cases h : alookup m p with
  | none => simp
  | some v =>
    simp only [Option.getD_some]
    exact ⟨fun hc => absurd hc (by simp), fun hc => absurd hc (hne (p, v) (alookup_mem h))⟩

theorem alookup_map_val {κ β γ : Type} [DecidableEq κ] (f : β → γ) :
    ∀ (m : List (κ × β)) (key : κ),
      alookup (m.map (fun kv => (kv.1, f kv.2))) key = (alookup m key).map f := by
  intro m
  induction m with
  | nil => intro key; rfl
  | cons kv1 rest ih =>
    intro key
    match kv1 with
    | (k1, v1) =>
      simp only [List.map_cons, alookup]
      by_cases h1 : key = k1
      · simp [h1]
      · simp [h1, ih]

theorem fromIter_alookup (input : List (Record × EventSet)) (p : Pattern) :
    alookup (fromIter input).stack p = (alookup (ingestAll input) p).map sortDedup := by
  show alookup ((ingestAll input).map (fun kv => (kv.1, sortDedup kv.2))) p = _
  exact alookup_map_val sortDedup (ingestAll input) p

/-! ### Candidate enumeration lemmas -/

theorem mem_pairs :
    ∀ (l : List Pattern) (x y : Pattern),
      (x, y) ∈ pairs l ↔ ∃ i j : Nat, i ≤ j ∧ l[i]? = some x ∧ l[j]? = some y := by
  intro l
  induction l with
  | nil => intro x y; simp [pairs]
  | cons p rest ih =>
    intro x y
    simp only [pairs, List.mem_cons, List.mem_append, List.mem_map]
    constructor
    · rintro (h | ⟨q, hq, he⟩ | h)
      · have h1 : x = p := congrArg Prod.fst h
        have h2 : y = p := congrArg Prod.snd h
        exact ⟨0, 0, le_rfl, by simp [h1], by simp [h2]⟩
      · have h1 : x = p := (congrArg Prod.fst he).symm
        have h2 : y = q := (congrArg Prod.snd he).symm
        obtain ⟨j, hj⟩ := List.mem_iff_getElem?.mp hq
        exact ⟨0, j + 1, by omega, by simp [h1], by simpa [h2] using hj⟩
      · obtain ⟨i, j, hij, hi, hj⟩ := (ih x y).mp h
        exact ⟨i + 1, j + 1, by omega, by simpa using hi, by simpa using hj⟩
    · rintro ⟨i, j, hij, hi, hj⟩
      cases i with
      | zero =>
        rw [List.getElem?_cons_zero, Option.some_inj] at hi
        cases j with
        | zero =>
          rw [List.getElem?_cons_zero, Option.some_inj] at hj
          exact Or.inl (by rw [← hi, ← hj])
        | succ j2 =>
          rw [List.getElem?_cons_succ] at hj
          exact Or.inr (Or.inl ⟨y, List.mem_iff_getElem?.mpr ⟨j2, hj⟩, by rw [hi]⟩)
      | succ i2 =>
        cases j with
        | zero => omega
        | succ j2 =>
          rw [List.getElem?_cons_succ] at hi hj
          exact Or.inr (Or.inr ((ih x y).mpr ⟨i2, j2, by omega, hi, hj⟩))

theorem fst_mem_of_mem_pairs :
    ∀ {l : List Pattern} {x y : Pattern}, (x, y) ∈ pairs l → x ∈ l := by
  intro l x y h
  obtain ⟨i, _, _, hi, _⟩ := (mem_pairs l x y).mp h
  exact List.mem_iff_getElem?.mpr ⟨i, hi⟩

theorem pairs_nodup : ∀ {l : List Pattern}, l.Nodup → (pairs l).Nodup := by
  intro l
  induction l with
  | nil => intro _; simp [pairs]
  | cons p rest ih =>
    intro h
    rw [List.nodup_cons] at h
    obtain ⟨hp, hrest⟩ := h
    show ((p, p) :: (rest.map (fun q => (p, q)) ++ pairs rest)).Nodup
    rw [List.nodup_cons]
    constructor
    · intro hmem
      rcases List.mem_append.mp hmem with h9 | h9
      · obtain ⟨q, hq, he⟩ := List.mem_map.mp h9
        have : q = p := congrArg Prod.snd he
        exact hp (this ▸ hq)
      · exact hp (fst_mem_of_mem_pairs h9)
    · rw [List.nodup_append]
      refine ⟨hrest.map (fun q1 q2 he => ?_), ih hrest, ?_⟩
      · exact congrArg Prod.snd he
      · intro a ha hb
        obtain ⟨q, hq, he⟩ := List.mem_map.mp ha
        have : a.1 = p := by rw [← he]
        exact hp (this ▸ fst_mem_of_mem_pairs hb)

theorem sidCount_le {u v : List Record} (h : ∀ r ∈ u, ∃ x ∈ v, x.sid = r.sid) :
    sidCount u ≤ sidCount v := by
  apply Finset.card_le_card
  intro s hs
  rw [List.mem_toFinset, List.mem_map] at hs
  obtain ⟨r, hr, hrs⟩ := hs
  obtain ⟨x, hx, hxs⟩ := h r hr
  rw [List.mem_toFinset, List.mem_map]
  exact ⟨x, hx, by rw [hxs, hrs]⟩

/-! ### The claims -/

/-- C1: `join_extend` on id-lists sorted strictly ascending by (sid, eid)
with no duplicates returns exactly the records `b` of B, in B's order, such
that some record of A shares `b`'s sid and has strictly smaller eid; the
output is strictly sorted with no duplicates, each B element appearing at
most once. -/
theorem join_extend_spec (a b : List Record)
    (ha : a.Sorted (· < ·)) (hb : b.Sorted (· < ·)) :
    join_extend a b = b.filter (fun y => decide (hasEarlier a y)) ∧
    (join_extend a b).Sorted (· < ·) ∧ (join_extend a b).Nodup := by
  have h2 : (join_extend a b).Sorted (· < ·) := hb.sublist (join_extend_sublist a b)
  exact ⟨join_extend_eq_filter ha hb, h2, h2.nodup⟩

theorem join_extend_spec_witness :
    join_extend [⟨0, 1⟩] [⟨0, 1⟩, ⟨0, 2⟩, ⟨1, 1⟩] =
      List.filter (fun y => decide (hasEarlier [⟨0, 1⟩] y)) [⟨0, 1⟩, ⟨0, 2⟩, ⟨1, 1⟩] ∧
    (join_extend [⟨0, 1⟩] [⟨0, 1⟩, ⟨0, 2⟩, ⟨1, 1⟩]).Sorted (· < ·) ∧
    (join_extend [⟨0, 1⟩] [⟨0, 1⟩, ⟨0, 2⟩, ⟨1, 1⟩]).Nodup :=
  join_extend_spec _ _ (by decide) (by decide)

/-- C2: `join_expand` on sorted duplicate-free id-lists emits exactly the
records present in both lists (the sorted intersection), and is symmetric
in its arguments. -/
theorem join_expand_spec (a b : List Record)
    (ha : a.Sorted (· < ·)) (hb : b.Sorted (· < ·)) :
    join_expand a b = b.filter (fun y => decide (y ∈ a)) ∧
    join_expand a b = join_expand b a :=
  ⟨join_expand_eq_filter ha hb, join_expand_comm ha hb⟩

theorem join_expand_spec_witness :
    join_expand [⟨0, 1⟩, ⟨1, 1⟩] [⟨0, 1⟩, ⟨0, 2⟩] =
      List.filter (fun y => decide (y ∈ ([⟨0, 1⟩, ⟨1, 1⟩] : List Record))) [⟨0, 1⟩, ⟨0, 2⟩] ∧
    join_expand [⟨0, 1⟩, ⟨1, 1⟩] [⟨0, 1⟩, ⟨0, 2⟩] = join_expand [⟨0, 1⟩, ⟨0, 2⟩] [⟨0, 1⟩, ⟨1, 1⟩] :=
  join_expand_spec _ _ (by decide) (by decide)

/-- C3 (counterexample): the one-shorter rule of `Spade::next` fires for
`P_a = [{0}]`, `P_b = [{1},{2}]` although `P_b[..1] ≠ P_a`; on the input
`inputMixed` the second level inserts `[{0,1},{3}]`, a pattern emitted by
that rule from `P_a = [{0,1}]` and a length-2 `P_b` ending in `{3}` whose
prefix is not `P_a`. -/
theorem ruleXplusCond_claim_counterexample :
    ruleXplusCond [[0]] [[1], [2]] ∧
    ([[1], [2]] : Pattern).take (([[1], [2]] : Pattern).length - 1) ≠ [[0]] ∧
    alookup (((fromIter inputMixed).next 0).next 0).stack [[0, 1], [3]] = some [⟨0, 2⟩] ∧
    ([[2], [3]] : Pattern).take (([[2], [3]] : Pattern).length - 1) ≠ [[0, 1]] := by
  decide

/-- C3 (amended): for a non-empty `P_a`, the guard of the one-shorter rule
holds exactly when `len(P_a) + 1 = len(P_b)` and the first `len(P_b) − 2`
elements of `P_b` equal the first `len(P_a) − 1` elements of `P_a`; the
last element of `P_a` is not constrained. -/
theorem ruleXplusCond_char (pattern_a pattern_b : Pattern) (h : pattern_a ≠ []) :
    ruleXplusCond pattern_a pattern_b ↔
      pattern_a.length + 1 = pattern_b.length ∧
      pattern_b.take (pattern_b.length - 2) = pattern_a.take (pattern_a.length - 1) := by
  unfold ruleXplusCond
  have hlen : 0 < pattern_a.length := List.length_pos.mpr h
  rw [List.take_take]
  have hmin : min (pattern_b.length - 1 - 1) (pattern_b.length - 1) = pattern_b.length - 2 := by
    omega
  rw [hmin]
  constructor
  · rintro ⟨l1, l2⟩
    exact ⟨by omega, l2⟩
  · rintro ⟨l1, l2⟩
    exact ⟨by omega, l2⟩

theorem ruleXplusCond_char_witness :
    ([[0]] : Pattern) ≠ [] ∧
    (ruleXplusCond [[0]] [[1], [2]] ↔
      ([[0]] : Pattern).length + 1 = ([[1], [2]] : Pattern).length ∧
      ([[1], [2]] : Pattern).take (([[1], [2]] : Pattern).length - 2) =
        ([[0]] : Pattern).take (([[0]] : Pattern).length - 1)) :=
  ⟨by decide, ruleXplusCond_char [[0]] [[1], [2]] (by decide)⟩

set_option maxRecDepth 1000000 in
/-- C4 (counterexample): on `inputRevise`, after two levels the store maps
`[{1,2},{0,1}]` to `[(0,2)]`, and the third `next(0)` overwrites that entry
with the empty id-list: the store is not append-only. -/
theorem next_store_revision_counterexample :
    alookup (((fromIter inputRevise).next 0).next 0).store [[1, 2], [0, 1]]
      = some [⟨0, 2⟩] ∧
    alookup ((((fromIter inputRevise).next 0).next 0).next 0).store [[1, 2], [0, 1]]
      = some [] := by
  decide

/-- C4 (amended): `next` writes the store only at the patterns of the next
frontier: a pattern absent from the new frontier keeps its old store entry,
and a pattern present in the new frontier ends up mapped to the frontier's
id-list — overwriting any previous entry under the same pattern. -/
theorem next_store_frame (s : Spade) (min_sup : Nat) (p : Pattern) :
    (alookup (s.next min_sup).stack p = none →
      alookup (s.next min_sup).store p = alookup s.store p) ∧
    ∀ v, alookup (s.next min_sup).stack p = some v →
      alookup (s.next min_sup).store p = some v := by
  constructor
  · intro h
    rw [next_store_def]
    rw [next_stack_def] at h
    exact extendMap_alookup_none h
  · intro v h
    rw [next_store_def]
    rw [next_stack_def] at h
    exact extendMap_alookup_some (foldl_processPair_keys_nodup s.stack _ [] List.nodup_nil) h

theorem next_store_frame_witness :
    alookup ((fromIter inputSingle).next 0).store [[0]]
      = alookup (fromIter inputSingle).store [[0]] ∧
    alookup ((fromIter inputSingle).next 0).store [[0], [0]] = some [] :=
  ⟨(next_store_frame (fromIter inputSingle) 0 [[0]]).1 (by decide),
   (next_store_frame (fromIter inputSingle) 0 [[0], [0]]).2 [] (by decide)⟩

/-- C5 (counterexample): on the single input `(0,1,{0})`, one `next(0)`
does not leave the frontier empty: the self-pair's pattern `[{0},{0}]` is
inserted with its empty temporal join. -/
theorem next_single_counterexample :
    ((fromIter inputSingle).next 0).stack = [([[0], [0]], [])] ∧
    ((fromIter inputSingle).next 0).stack ≠ [] := by
  decide

/-- C5 (amended): the store maps `[{0}]` to `[(0,1)]`; one `next(0)` leaves
the frontier holding exactly `[{0},{0}]` with the empty id-list (the
self-pair's temporal join is empty but the pattern is still inserted), and
a second `next(0)` empties the frontier. -/
theorem next_single_amended :
    alookup (fromIter inputSingle).store [[0]] = some [⟨0, 1⟩] ∧
    ((fromIter inputSingle).next 0).stack = [([[0], [0]], [])] ∧
    (((fromIter inputSingle).next 0).next 0).stack = [] := by
  decide

/-- C6: in every engine state reachable by construction and `next` calls,
every id-list in the frontier and in the store is strictly sorted by
(sid, eid) and duplicate-free. -/
theorem reachable_idlists_sorted_nodup (s : Spade) (h : Reachable s) :
    (∀ kv ∈ s.stack, kv.2.Sorted (· < ·) ∧ kv.2.Nodup) ∧
    (∀ kv ∈ s.store, kv.2.Sorted (· < ·) ∧ kv.2.Nodup) := by
  obtain ⟨h1, h2⟩ := reachable_sorted h
  exact ⟨fun kv hkv => ⟨h1 kv hkv, (h1 kv hkv).nodup⟩,
    fun kv hkv => ⟨h2 kv hkv, (h2 kv hkv).nodup⟩⟩

theorem reachable_idlists_sorted_nodup_witness :
    (∀ kv ∈ (fromIter inputSingle).stack, kv.2.Sorted (· < ·) ∧ kv.2.Nodup) ∧
    (∀ kv ∈ (fromIter inputSingle).store, kv.2.Sorted (· < ·) ∧ kv.2.Nodup) :=
  reachable_idlists_sorted_nodup _ (Reachable.init inputSingle)

/-- C7: support is antimonotone: on sorted duplicate-free id-lists, the
number of distinct sids in `join_extend a b` and in `join_expand a b` is at
most the number of distinct sids of `a` and at most that of `b`. -/
theorem join_support_antimonotone (a b : List Record)
    (ha : a.Sorted (· < ·)) (hb : b.Sorted (· < ·)) :
    (sidCount (join_extend a b) ≤ sidCount a ∧ sidCount (join_extend a b) ≤ sidCount b) ∧
    (sidCount (join_expand a b) ≤ sidCount a ∧ sidCount (join_expand a b) ≤ sidCount b) := by
  refine ⟨⟨?_, ?_⟩, ?_, ?_⟩
  · exact sidCount_le (fun r hr => sid_of_mem_join_extend hr)
  · exact sidCount_le (fun r hr => ⟨r, (join_extend_sublist a b).subset hr, rfl⟩)
  · exact sidCount_le (fun r hr => sid_of_mem_join_expand hr)
  · exact sidCount_le (fun r hr => ⟨r, (join_expand_sublist a b).subset hr, rfl⟩)

theorem join_support_antimonotone_witness :
    (sidCount (join_extend [⟨0, 1⟩] [⟨0, 2⟩]) ≤ sidCount [⟨0, 1⟩] ∧
      sidCount (join_extend [⟨0, 1⟩] [⟨0, 2⟩]) ≤ sidCount [⟨0, 2⟩]) ∧
    (sidCount (join_expand [⟨0, 1⟩] [⟨0, 2⟩]) ≤ sidCount [⟨0, 1⟩] ∧
      sidCount (join_expand [⟨0, 1⟩] [⟨0, 2⟩]) ≤ sidCount [⟨0, 2⟩]) :=
  join_support_antimonotone _ _ (by decide) (by decide)

/-- C8: `Spade::candidate` considers exactly the frontier patterns whose
id-list length strictly exceeds `min_sup`, and over those survivors emits
the pair `(P, Q)` exactly when `P` sits at position `i` and `Q` at position
`j ≥ i` of the survivor enumeration — so each survivor is self-paired once
and each unordered pair of distinct survivors appears exactly once. -/
theorem candidate_spec (s : Spade) (min_sup : Nat)
    (hnd : (s.stack.map Prod.fst).Nodup) :
    (∀ x y : Pattern,
      ((x, y) ∈ s.candidate min_sup ↔
        ∃ i j : Nat, i ≤ j ∧
          ((s.stack.filter (fun kv => min_sup < kv.2.length)).map Prod.fst)[i]? = some x ∧
          ((s.stack.filter (fun kv => min_sup < kv.2.length)).map Prod.fst)[j]? = some y)) ∧
    (s.candidate min_sup).Nodup := by
  have hsur : (((s.stack.filter (fun kv => min_sup < kv.2.length)).map Prod.fst)).Nodup :=
    List.Nodup.sublist (List.Sublist.map Prod.fst (List.filter_sublist s.stack)) hnd
  exact ⟨fun x y => mem_pairs _ x y, pairs_nodup hsur⟩

theorem candidate_spec_witness :
    (∀ x y : Pattern,
      ((x, y) ∈ (Spade.mk [([[0]], [⟨0, 1⟩]), ([[1]], [⟨0, 2⟩])] []).candidate 0 ↔
        ∃ i j : Nat, i ≤ j ∧
          (((Spade.mk [([[0]], [⟨0, 1⟩]), ([[1]], [⟨0, 2⟩])] []).stack.filter
            (fun kv => 0 < kv.2.length)).map Prod.fst)[i]? = some x ∧
          (((Spade.mk [([[0]], [⟨0, 1⟩]), ([[1]], [⟨0, 2⟩])] []).stack.filter
            (fun kv => 0 < kv.2.length)).map Prod.fst)[j]? = some y)) ∧
    ((Spade.mk [([[0]], [⟨0, 1⟩]), ([[1]], [⟨0, 2⟩])] []).candidate 0).Nodup :=
  candidate_spec _ 0 (by decide)

/-- C9: construction is idempotent under duplicated input: ingesting a
stream twice yields, after the post-ingestion sort and dedup, the same
pattern-to-id-list frontier mapping as ingesting it once. -/
theorem fromIter_idempotent (input : List (Record × EventSet)) (p : Pattern) :
    alookup (fromIter (input ++ input)).stack p = alookup (fromIter input).stack p := by
  rw [fromIter_alookup, fromIter_alookup]
  have hm : ∀ z : Record, z ∈ (alookup (ingestAll (input ++ input)) p).getD [] ↔
      z ∈ (alookup (ingestAll input) p).getD [] := by
    intro z
    rw [ingestAll_mem, ingestAll_mem]
    constructor
    · rintro ⟨rv, hrv, hrest⟩
      rcases List.mem_append.mp hrv with h | h
      · exact ⟨rv, h, hrest⟩
      · exact ⟨rv, h, hrest⟩
    · rintro ⟨rv, hrv, hrest⟩
      exact ⟨rv, List.mem_append.mpr (Or.inl hrv), hrest⟩
  cases h1 : alookup (ingestAll (input ++ input)) p with
  | none =>
    cases h2 : alookup (ingestAll input) p with
    | none => rfl
    | some v2 =>
      exfalso
      have hne : v2 ≠ [] := ingestAll_vals_ne input (p, v2) (alookup_mem h2)
      obtain ⟨z, hz⟩ := List.exists_mem_of_ne_nil v2 hne
      have hz2 := (hm z).mpr (by rw [h2]; exact hz)
      rw [h1] at hz2
      simp at hz2
  | some v1 =>
    cases h2 : alookup (ingestAll input) p with
    | none =>
      exfalso
      have hne : v1 ≠ [] := ingestAll_vals_ne (input ++ input) (p, v1) (alookup_mem h1)
      obtain ⟨z, hz⟩ := List.exists_mem_of_ne_nil v1 hne
      have hz2 := (hm z).mp (by rw [h1]; exact hz)
      rw [h2] at hz2
      simp at hz2
    | some v2 =>
      show some (sortDedup v1) = some (sortDedup v2)
      congr 1
      apply eq_of_sorted_lt_mem_iff (sortDedup_sorted v1) (sortDedup_sorted v2)
      intro z
      rw [mem_sortDedup, mem_sortDedup]
      have hz2 := hm z
      rw [h1, h2] at hz2
      simpa using hz2

/-- C10: `next` never panics on a reachable state: every frontier pattern
is non-empty, so `pattern.len() - 1` never underflows, and whenever the
short-circuited length test of the one-shorter rule holds the slice bound
`last_idx - 1` is at least 0 and within the prefix slice. -/
theorem next_index_bounds (s : Spade) (h : Reachable s) :
    (∀ kv ∈ s.stack, kv.1 ≠ []) ∧
    (∀ pattern_a pattern_b : Pattern, pattern_a ≠ [] →
      pattern_a.length - 1 + 1 = pattern_b.length - 1 →
      1 ≤ pattern_b.length - 1 ∧
        pattern_b.length - 1 - 1 ≤ (pattern_b.take (pattern_b.length - 1)).length) := by
  refine ⟨reachable_keys_ne h, ?_⟩
  intro pattern_a pattern_b hpa hlen
  have h1 : 0 < pattern_a.length := List.length_pos.mpr hpa
  constructor
  · omega
  · rw [List.length_take]
    omega

theorem next_index_bounds_witness :
    (∀ kv ∈ (fromIter inputSingle).stack, kv.1 ≠ []) ∧
    (∀ pattern_a pattern_b : Pattern, pattern_a ≠ [] →
      pattern_a.length - 1 + 1 = pattern_b.length - 1 →
      1 ≤ pattern_b.length - 1 ∧
        pattern_b.length - 1 - 1 ≤ (pattern_b.take (pattern_b.length - 1)).length) :=
  next_index_bounds _ (Reachable.init inputSingle)

end SeqPattern
